import Mathlib

/-!
Formal model of the document ingestion and retrieval engine of the
Enterprise Knowledge DMS backend (src/backend/server.py), together with
theorems settling the specification claims about it.

Python strings are modeled as lists of characters, byte strings as lists of
naturals, floats as rationals (the similarity scores arising here are exact
small-denominator fractions, so rational arithmetic agrees with IEEE doubles
on every comparison the code performs), and the MongoDB collections as lists
kept in insertion order (which is the iteration order the code relies on).
-/

namespace DMS

/-- Text (Python str) is modeled as a list of characters. -/
abbrev Text := List Char

/-- Python str.lower: Char.toLower lowercases exactly the ASCII range A-Z,
which is faithful for the ASCII texts the keyword pipeline cares about. -/
def pyLower (t : Text) : Text := t.map Char.toLower

/-- The ASCII whitespace characters recognized by Python str.strip. -/
def pyIsSpace (c : Char) : Bool :=
  c == ' ' || c == '\t' || c == '\n' || c == '\r' || c == '\x0b' || c == '\x0c'

/-- Python str.strip: drop leading and trailing whitespace. -/
def pyStrip (t : Text) : Text :=
  ((t.dropWhile pyIsSpace).reverse.dropWhile pyIsSpace).reverse

/-- Python regex word character over ASCII: letters, digits and underscore.
The source regex is applied to document text; for ASCII input this matches
the semantics of the backslash-b word boundary exactly. -/
def isWordChar (c : Char) : Bool := c.isAlphanum || c == '_'

/-- One left-to-right scan of the regex findall over the pattern
matching runs of at least three ASCII letters delimited by word boundaries
(src/backend/server.py line 240).  The accumulator holds the letter run
currently being matched (None when not inside a candidate run), and the
Bool records whether the previous character was a word character, which is
what a word boundary tests.  A run that touches a digit or underscore on
either side has no word boundary there and produces no match, exactly as
the regex engine behaves. -/
def scanTokens : Option Text → Bool → List Char → List Text
  | some r, _, [] => if 3 ≤ r.length then [r] else []
  | none, _, [] => []
  | some r, _, c :: cs =>
    if c.isAlpha then scanTokens (some (r ++ [c])) true cs
    else
      (if 3 ≤ r.length ∧ isWordChar c = false then [r] else []) ++
        scanTokens none (isWordChar c) cs
  | none, prevW, c :: cs =>
    if c.isAlpha then
      if prevW then scanTokens none true cs else scanTokens (some [c]) true cs
    else scanTokens none (isWordChar c) cs

/-- The stop word set of get_text_keywords, transcribed from the Python set
literal in source order (the literal lists been and have twice; a list with
the same members has the same membership test). -/
def stop_words : List Text :=
  ["the".toList, "and".toList, "for".toList, "are".toList, "but".toList, "not".toList,
   "you".toList, "all".toList, "can".toList, "had".toList, "her".toList, "was".toList,
   "one".toList, "our".toList, "out".toList, "has".toList, "have".toList, "been".toList,
   "from".toList, "they".toList, "were".toList, "been".toList, "have".toList, "many".toList,
   "some".toList, "them".toList, "this".toList, "that".toList, "with".toList, "will".toList,
   "would".toList, "there".toList, "their".toList, "what".toList, "which".toList, "when".toList,
   "where".toList, "while".toList, "into".toList, "more".toList, "other".toList, "could".toList,
   "should".toList]

/-- get_text_keywords (src/backend/server.py lines 236-243): find all
word-boundary delimited runs of at least three letters in the lowercased
text, then drop stop words.  Returns a list in match order, duplicates
preserved, exactly as re.findall plus a list comprehension does. -/
def get_text_keywords (text : Text) : List Text :=
  (scanTokens none false (pyLower text)).filter (fun w => decide (¬ w ∈ stop_words))

/-- calculate_text_similarity (src/backend/server.py lines 245-257):
Jaccard index of the two keyword sets, 0 when either set is empty. -/
def calculate_text_similarity (text1 text2 : Text) : ℚ :=
  let words1 := (get_text_keywords text1).toFinset
  let words2 := (get_text_keywords text2).toFinset
  if words1 = ∅ ∨ words2 = ∅ then 0
  else
    let inter := words1 ∩ words2
    let union := words1 ∪ words2
    if union = ∅ then 0 else (inter.card : ℚ) / (union.card : ℚ)

lemma similarity_comm (t1 t2 : Text) :
    calculate_text_similarity t1 t2 = calculate_text_similarity t2 t1 := by
  unfold calculate_text_similarity
  simp only [Finset.inter_comm, Finset.union_comm, or_comm]

lemma similarity_nonneg (t1 t2 : Text) : 0 ≤ calculate_text_similarity t1 t2 := by
  simp only [calculate_text_similarity]
  split_ifs
  · exact le_refl 0
  · exact le_refl 0
  · positivity

lemma similarity_le_one (t1 t2 : Text) : calculate_text_similarity t1 t2 ≤ 1 := by
  simp only [calculate_text_similarity]
  split_ifs with h1 h2
  · exact zero_le_one
  · exact zero_le_one
  · have hpos : 0 < ((get_text_keywords t1).toFinset ∪ (get_text_keywords t2).toFinset).card :=
      Finset.card_pos.mpr (Finset.nonempty_iff_ne_empty.mpr h2)
    rw [div_le_one (by exact_mod_cast hpos)]
    exact_mod_cast Finset.card_le_card Finset.inter_subset_union

lemma similarity_self (t : Text) (h : (get_text_keywords t).toFinset ≠ ∅) :
    calculate_text_similarity t t = 1 := by
  simp only [calculate_text_similarity]
  rw [if_neg (by simpa using h), Finset.inter_self, Finset.union_self, if_neg h]
  have hpos : 0 < (get_text_keywords t).toFinset.card :=
    Finset.card_pos.mpr (Finset.nonempty_iff_ne_empty.mpr h)
  exact div_self (by exact_mod_cast hpos.ne')

lemma similarity_empty_left (t1 t2 : Text) (h : (get_text_keywords t1).toFinset = ∅) :
    calculate_text_similarity t1 t2 = 0 := by
  simp only [calculate_text_similarity]
  rw [if_pos (Or.inl h)]

lemma similarity_empty_right (t1 t2 : Text) (h : (get_text_keywords t2).toFinset = ∅) :
    calculate_text_similarity t1 t2 = 0 := by
  simp only [calculate_text_similarity]
  rw [if_pos (Or.inr h)]

/-- C2: the similarity function is the Jaccard index over the two derived
keyword sets: symmetric for all inputs, 1 on identical inputs with a
non-empty keyword set, 0 whenever either keyword set is empty, and always
within the closed interval from 0 to 1. -/
theorem similarity_spec (t1 t2 : Text) :
    calculate_text_similarity t1 t2 = calculate_text_similarity t2 t1 ∧
    0 ≤ calculate_text_similarity t1 t2 ∧
    calculate_text_similarity t1 t2 ≤ 1 ∧
    ((get_text_keywords t1).toFinset ≠ ∅ → calculate_text_similarity t1 t1 = 1) ∧
    ((get_text_keywords t1).toFinset = ∅ →
      calculate_text_similarity t1 t2 = 0 ∧ calculate_text_similarity t2 t1 = 0) :=
  ⟨similarity_comm t1 t2, similarity_nonneg t1 t2, similarity_le_one t1 t2,
   fun h => similarity_self t1 h,
   fun h => ⟨similarity_empty_left t1 t2 h, similarity_empty_right t2 t1 h⟩⟩

/-- Witness for similarity_spec at concrete inputs with a non-empty keyword set. -/
theorem similarity_spec_witness :
    (get_text_keywords "cat dog".toList).toFinset ≠ ∅ ∧
    calculate_text_similarity "cat dog".toList "cat".toList =
      calculate_text_similarity "cat".toList "cat dog".toList ∧
    calculate_text_similarity "cat dog".toList "cat dog".toList = 1 :=
  ⟨by decide, (similarity_spec "cat dog".toList "cat".toList).1,
   (similarity_spec "cat dog".toList "cat".toList).2.2.2.1 (by decide)⟩

/-! ### Chunker -/

/-- The stripped sliding window of the chunker at a given start offset:
Python text[start : start + chunk_size].strip(). -/
def windowAt (text : Text) (chunk_size start : ℕ) : Text :=
  pyStrip ((text.drop start).take chunk_size)

/-- Fuel-indexed model of the while loop of chunk_text
(src/backend/server.py lines 220-234).  Each iteration takes the window
text[start : start + chunk_size], appends its stripped form when that is
non-empty, and advances start to (start + chunk_size) - overlap.  The value
none models fuel exhaustion, that is a loop still running; the wrapper
passes enough fuel for every terminating configuration, so none appears
exactly when the Python loop would spin forever (overlap equal to
chunk_size; larger overlaps, where Python slides backwards into negative
indices, are outside the domain the claims quantify over). -/
def chunkLoopF : ℕ → Text → ℕ → ℕ → ℕ → Option (List Text)
  | 0, text, _, _, start => if start < text.length then none else some []
  | fuel + 1, text, chunk_size, overlap, start =>
    if start < text.length then
      match chunkLoopF fuel text chunk_size overlap (start + chunk_size - overlap) with
      | none => none
      | some rest =>
        some (if windowAt text chunk_size start = [] then rest
              else windowAt text chunk_size start :: rest)
    else some []

/-- chunk_text (src/backend/server.py lines 220-234): empty text yields an
empty list, otherwise the sliding-window loop runs from offset 0.  A result
some cs means the loop terminates with output cs. -/
def chunk_text (text : Text) (chunk_size : ℕ) (overlap : ℕ) : Option (List Text) :=
  if text = [] then some []
  else chunkLoopF (text.length + 1) text chunk_size overlap 0

/-- The start offsets the chunking loop visits: start, start + step,
start + 2 step, and so on while below len, where step is
chunk_size - overlap. -/
def offsetsFrom (len step : ℕ) (hstep : 0 < step) (start : ℕ) : List ℕ :=
  if h : start < len then start :: offsetsFrom len step hstep (start + step) else []
termination_by len - start
decreasing_by omega

lemma offsetsFrom_pos (len step : ℕ) (hstep : 0 < step) (start : ℕ) (hlt : start < len) :
    offsetsFrom len step hstep start = start :: offsetsFrom len step hstep (start + step) := by
  rw [offsetsFrom]
  exact dif_pos hlt

lemma offsetsFrom_neg (len step : ℕ) (hstep : 0 < step) (start : ℕ) (hge : ¬ start < len) :
    offsetsFrom len step hstep start = [] := by
  rw [offsetsFrom]
  exact dif_neg hge

lemma chunkLoopF_spec (text : Text) (chunk_size overlap : ℕ) (h : overlap < chunk_size) :
    ∀ fuel start, text.length ≤ start + fuel * (chunk_size - overlap) →
      chunkLoopF fuel text chunk_size overlap start =
        some ((offsetsFrom text.length (chunk_size - overlap) (by omega) start).filterMap
          (fun s => if windowAt text chunk_size s = [] then none
                    else some (windowAt text chunk_size s))) := by
  intro fuel
  induction fuel with
  | zero =>
    intro start hfuel
    rw [chunkLoopF, offsetsFrom]
    rw [if_neg (by omega), dif_neg (by omega)]
    rfl
  | succ fuel ih =>
    intro start hfuel
    by_cases hs : start < text.length
    · rw [chunkLoopF, if_pos hs]
      have harith : start + chunk_size - overlap = start + (chunk_size - overlap) := by omega
      rw [harith, ih (start + (chunk_size - overlap))
        (by rw [Nat.succ_mul] at hfuel; omega)]
      rw [offsetsFrom_pos _ _ _ _ hs]
      rw [List.filterMap_cons]
      by_cases hw : windowAt text chunk_size start = []
      · simp [hw]
      · simp [hw]
    · rw [chunkLoopF, if_neg hs, offsetsFrom_neg _ _ _ _ hs]
      rfl

lemma chunk_text_spec (text : Text) (chunk_size overlap : ℕ) (h : overlap < chunk_size) :
    chunk_text text chunk_size overlap =
      some ((offsetsFrom text.length (chunk_size - overlap) (by omega) 0).filterMap
        (fun s => if windowAt text chunk_size s = [] then none
                  else some (windowAt text chunk_size s))) := by
  rw [chunk_text]
  by_cases ht : text = []
  · rw [if_pos ht, ht]
    rw [offsetsFrom_neg _ _ _ _ (by simp)]
    rfl
  · rw [if_neg ht]
    apply chunkLoopF_spec text chunk_size overlap h
    have hstep : 0 < chunk_size - overlap := by omega
    calc text.length ≤ (text.length + 1) * 1 := by omega
    _ ≤ (text.length + 1) * (chunk_size - overlap) :=
        Nat.mul_le_mul_left _ hstep
    _ = 0 + (text.length + 1) * (chunk_size - overlap) := by omega

lemma offsetsFrom_eq_range_map (len step : ℕ) (hstep : 0 < step) :
    ∀ start, offsetsFrom len step hstep start =
      (List.range (offsetsFrom len step hstep start).length).map
        (fun i => start + i * step) := by
  have key : ∀ n start, len - start ≤ n →
      offsetsFrom len step hstep start =
        (List.range (offsetsFrom len step hstep start).length).map
          (fun i => start + i * step) := by
    intro n
    induction n with
    | zero =>
      intro start hn
      rw [offsetsFrom_neg _ _ _ _ (by omega)]
      rfl
    | succ n ih =>
      intro start hn
      by_cases hlt : start < len
      · have ihs := ih (start + step) (by omega)
        rw [offsetsFrom_pos _ _ _ _ hlt, List.length_cons, List.range_succ_eq_map,
          List.map_cons, List.map_map]
        have hfun : ((fun i => start + i * step) ∘ Nat.succ) =
            (fun i => start + step + i * step) := by
          funext i
          simp only [Function.comp_apply, Nat.succ_eq_add_one]
          ring
        rw [hfun]
        exact congrArg₂ List.cons (by omega) ihs
      · rw [offsetsFrom_neg _ _ _ _ hlt]
        rfl
  intro start
  exact key (len - start) start le_rfl

lemma offsetsFrom_chain (len step : ℕ) (hstep : 0 < step) :
    ∀ start, List.Chain' (· < ·) (offsetsFrom len step hstep start) := by
  have key : ∀ n start, len - start ≤ n →
      List.Chain' (· < ·) (offsetsFrom len step hstep start) := by
    intro n
    induction n with
    | zero =>
      intro start hn
      rw [offsetsFrom_neg _ _ _ _ (by omega)]
      exact List.chain'_nil
    | succ n ih =>
      intro start hn
      by_cases hlt : start < len
      · rw [offsetsFrom_pos _ _ _ _ hlt]
        rw [List.chain'_cons']
        refine ⟨?_, ih (start + step) (by omega)⟩
        intro b hb
        by_cases hlt2 : start + step < len
        · rw [offsetsFrom_pos _ _ _ _ hlt2] at hb
          simp only [List.head?_cons, Option.mem_def, Option.some.injEq] at hb
          omega
        · rw [offsetsFrom_neg _ _ _ _ hlt2] at hb
          simp at hb
      · rw [offsetsFrom_neg _ _ _ _ hlt]
        exact List.chain'_nil
  intro start
  exact key (len - start) start le_rfl

lemma offsets_1200 (len : ℕ) (hlen : len = 1200) (hstep : 0 < 1000 - 200) :
    offsetsFrom len (1000 - 200) hstep 0 = [0, 800] := by
  subst hlen
  rw [offsetsFrom_pos _ _ _ _ (by omega)]
  rw [offsetsFrom_pos _ _ _ _ (by omega)]
  rw [offsetsFrom_neg _ _ _ _ (by omega)]

/-- C3: with overlap below chunk_size the chunking loop terminates (the
result is some, never the fuel-exhaustion value none) and produces exactly
the non-whitespace stripped windows taken at start offsets 0, step, 2 step,
and so on (step = chunk_size - overlap), a strictly increasing offset
sequence in which whitespace-only windows are dropped from the output but
still advance the cursor; the empty text yields the empty list; and a
1200-character text at chunk_size 1000 and overlap 200 whose two windows
are not whitespace-only yields exactly the two chunks spanning offsets
0 to 1000 and 800 to 1200. -/
theorem chunk_spec (text : Text) (chunk_size overlap : ℕ) (h : overlap < chunk_size) :
    chunk_text text chunk_size overlap =
      some ((offsetsFrom text.length (chunk_size - overlap) (by omega) 0).filterMap
        (fun s => if windowAt text chunk_size s = [] then none
                  else some (windowAt text chunk_size s))) ∧
    offsetsFrom text.length (chunk_size - overlap) (by omega) 0 =
      (List.range (offsetsFrom text.length (chunk_size - overlap) (by omega) 0).length).map
        (fun i => i * (chunk_size - overlap)) ∧
    List.Chain' (· < ·) (offsetsFrom text.length (chunk_size - overlap) (by omega) 0) ∧
    chunk_text ([] : Text) chunk_size overlap = some [] ∧
    (text.length = 1200 → chunk_size = 1000 → overlap = 200 →
      pyStrip (text.take 1000) ≠ [] → pyStrip ((text.drop 800).take 1000) ≠ [] →
      chunk_text text chunk_size overlap =
        some [pyStrip (text.take 1000), pyStrip ((text.drop 800).take 1000)]) := by
  have hstep : 0 < chunk_size - overlap := by omega
  refine ⟨chunk_text_spec text chunk_size overlap h, ?_, ?_, ?_, ?_⟩
  · have h0 := offsetsFrom_eq_range_map text.length (chunk_size - overlap) hstep 0
    rw [h0]
    simp only [List.length_map, List.length_range]
    apply List.map_congr_left
    intro i _
    omega
  · exact offsetsFrom_chain text.length (chunk_size - overlap) hstep 0
  · rw [chunk_text, if_pos rfl]
  · intro hlen hcs hov hw0 hw800
    subst hcs hov
    rw [chunk_text_spec text 1000 200 h]
    rw [offsets_1200 text.length hlen (by omega)]
    have hwin0 : windowAt text 1000 0 = pyStrip (text.take 1000) := by
      rw [windowAt, List.drop_zero]
    have hwin800 : windowAt text 1000 800 = pyStrip ((text.drop 800).take 1000) := rfl
    rw [List.filterMap_cons, List.filterMap_cons, List.filterMap_nil]
    rw [hwin0, hwin800]
    rw [if_neg hw0, if_neg hw800]

/-- Witness for chunk_spec: the fixed production parameters satisfy the
hypothesis and the empty-input conjunct evaluates. -/
theorem chunk_spec_witness :
    (200 : ℕ) < 1000 ∧ chunk_text ([] : Text) 1000 200 = some [] :=
  ⟨by decide, (chunk_spec "ab".toList 1000 200 (by decide)).2.2.2.1⟩

/-! ### Extractor: UTF-8 decoding with error handling -/

/-- UTF-8 continuation byte test (high bits 10). -/
def isCont (b : ℕ) : Bool := decide (0x80 ≤ b ∧ b ≤ 0xBF)

/-- UTF-8 decoder parameterized by the error-handler output err, emitted
once per rejected maximal subpart, matching the CPython decoder: err = []
is bytes.decode with errors=ignore (each invalid subsequence dropped),
err = the replacement character is errors=replace.  The branch structure
is the UTF-8 acceptance table: two-byte leads C2-DF; three-byte leads
E0-EF with restricted first continuation for E0 (A0-BF, no overlong forms)
and ED (80-9F, no surrogates); four-byte leads F0-F4 with restricted first
continuation for F0 (90-BF) and F4 (80-8F).  Any other byte is invalid and
decoding resumes at the byte after the rejected subpart. -/
def utf8DecodeWith (err : List Char) : List ℕ → List Char
  | [] => []
  | b :: rest =>
    if b < 0x80 then Char.ofNat b :: utf8DecodeWith err rest
    else if 0xC2 ≤ b ∧ b ≤ 0xDF then
      match rest with
      | [] => err
      | c1 :: rest1 =>
        if isCont c1 then
          Char.ofNat ((b - 0xC0) * 0x40 + (c1 - 0x80)) :: utf8DecodeWith err rest1
        else err ++ utf8DecodeWith err (c1 :: rest1)
    else if 0xE0 ≤ b ∧ b ≤ 0xEF then
      match rest with
      | [] => err
      | c1 :: rest1 =>
        if (if b = 0xE0 then decide (0xA0 ≤ c1 ∧ c1 ≤ 0xBF)
            else if b = 0xED then decide (0x80 ≤ c1 ∧ c1 ≤ 0x9F)
            else isCont c1) then
          match rest1 with
          | [] => err
          | c2 :: rest2 =>
            if isCont c2 then
              Char.ofNat ((b - 0xE0) * 0x1000 + (c1 - 0x80) * 0x40 + (c2 - 0x80)) ::
                utf8DecodeWith err rest2
            else err ++ utf8DecodeWith err (c2 :: rest2)
        else err ++ utf8DecodeWith err (c1 :: rest1)
    else if 0xF0 ≤ b ∧ b ≤ 0xF4 then
      match rest with
      | [] => err
      | c1 :: rest1 =>
        if (if b = 0xF0 then decide (0x90 ≤ c1 ∧ c1 ≤ 0xBF)
            else if b = 0xF4 then decide (0x80 ≤ c1 ∧ c1 ≤ 0x8F)
            else isCont c1) then
          match rest1 with
          | [] => err
          | c2 :: rest2 =>
            if isCont c2 then
              match rest2 with
              | [] => err
              | c3 :: rest3 =>
                if isCont c3 then
                  Char.ofNat ((b - 0xF0) * 0x40000 + (c1 - 0x80) * 0x1000 +
                    (c2 - 0x80) * 0x40 + (c3 - 0x80)) :: utf8DecodeWith err rest3
                else err ++ utf8DecodeWith err (c3 :: rest3)
            else err ++ utf8DecodeWith err (c2 :: rest2)
        else err ++ utf8DecodeWith err (c1 :: rest1)
    else err ++ utf8DecodeWith err rest
termination_by l => l.length
decreasing_by all_goals (simp_wf <;> omega)

/-- Standard UTF-8 encoding of one unicode scalar value. -/
def utf8EncodeChar (c : Char) : List ℕ :=
  let n := c.toNat
  if n < 0x80 then [n]
  else if n < 0x800 then [0xC0 + n / 0x40, 0x80 + n % 0x40]
  else if n < 0x10000 then
    [0xE0 + n / 0x1000, 0x80 + n / 0x40 % 0x40, 0x80 + n % 0x40]
  else
    [0xF0 + n / 0x40000, 0x80 + n / 0x1000 % 0x40, 0x80 + n / 0x40 % 0x40, 0x80 + n % 0x40]

/-- Standard UTF-8 encoding of a string. -/
def utf8Encode (s : List Char) : List ℕ := (s.map utf8EncodeChar).flatten

lemma utf8DecodeWith_nil (err : List Char) : utf8DecodeWith err [] = [] := by
  rw [utf8DecodeWith.eq_def]

lemma utf8DecodeWith_invalid (err : List Char) (b : ℕ) (rest : List ℕ)
    (h1 : ¬ b < 0x80) (h2 : ¬ (0xC2 ≤ b ∧ b ≤ 0xDF)) (h3 : ¬ (0xE0 ≤ b ∧ b ≤ 0xEF))
    (h4 : ¬ (0xF0 ≤ b ∧ b ≤ 0xF4)) :
    utf8DecodeWith err (b :: rest) = err ++ utf8DecodeWith err rest := by
  rw [utf8DecodeWith.eq_def]
  dsimp only
  rw [if_neg h1, if_neg h2, if_neg h3, if_neg h4]

lemma char_toNat_valid (c : Char) :
    c.toNat < 0xD800 ∨ (0xDFFF < c.toNat ∧ c.toNat < 0x110000) := c.valid

lemma decode_encodeChar (err : List Char) (c : Char) (rest : List ℕ) :
    utf8DecodeWith err (utf8EncodeChar c ++ rest) = c :: utf8DecodeWith err rest := by
  have hv := char_toNat_valid c
  by_cases h1 : c.toNat < 0x80
  · have henc : utf8EncodeChar c = [c.toNat] := by
      simp only [utf8EncodeChar]
      rw [if_pos h1]
    rw [henc, List.singleton_append, utf8DecodeWith.eq_def]
    dsimp only
    rw [if_pos h1, Char.ofNat_toNat]
  · by_cases h2 : c.toNat < 0x800
    · have henc : utf8EncodeChar c = [0xC0 + c.toNat / 0x40, 0x80 + c.toNat % 0x40] := by
        simp only [utf8EncodeChar]
        rw [if_neg h1, if_pos h2]
      rw [henc, List.cons_append, List.singleton_append, utf8DecodeWith.eq_def]
      dsimp only
      rw [if_neg (by omega), if_pos (by omega : 0xC2 ≤ 0xC0 + c.toNat / 0x40 ∧
        0xC0 + c.toNat / 0x40 ≤ 0xDF)]
      rw [if_pos (show isCont (0x80 + c.toNat % 0x40) = true by
        simp only [isCont, decide_eq_true_eq]; omega)]
      have hX : (0xC0 + c.toNat / 0x40 - 0xC0) * 0x40 + (0x80 + c.toNat % 0x40 - 0x80) =
          c.toNat := by omega
      rw [hX, Char.ofNat_toNat]
    · by_cases h3 : c.toNat < 0x10000
      · have henc : utf8EncodeChar c =
            [0xE0 + c.toNat / 0x1000, 0x80 + c.toNat / 0x40 % 0x40, 0x80 + c.toNat % 0x40] := by
          simp only [utf8EncodeChar]
          rw [if_neg h1, if_neg h2, if_pos h3]
        rw [henc, List.cons_append, List.cons_append, List.singleton_append,
          utf8DecodeWith.eq_def]
        dsimp only
        rw [if_neg (by omega), if_neg (by omega), if_pos (by omega :
          0xE0 ≤ 0xE0 + c.toNat / 0x1000 ∧ 0xE0 + c.toNat / 0x1000 ≤ 0xEF)]
        have hcond : (if 0xE0 + c.toNat / 0x1000 = 0xE0 then
              decide (0xA0 ≤ 0x80 + c.toNat / 0x40 % 0x40 ∧ 0x80 + c.toNat / 0x40 % 0x40 ≤ 0xBF)
            else if 0xE0 + c.toNat / 0x1000 = 0xED then
              decide (0x80 ≤ 0x80 + c.toNat / 0x40 % 0x40 ∧ 0x80 + c.toNat / 0x40 % 0x40 ≤ 0x9F)
            else isCont (0x80 + c.toNat / 0x40 % 0x40)) = true := by
          split_ifs with hb1 hb2
          · simp only [decide_eq_true_eq]
            omega
          · simp only [decide_eq_true_eq]
            omega
          · simp only [isCont, decide_eq_true_eq]
            omega
        rw [if_pos hcond]
        rw [if_pos (show isCont (0x80 + c.toNat % 0x40) = true by
          simp only [isCont, decide_eq_true_eq]; omega)]
        have hX : (0xE0 + c.toNat / 0x1000 - 0xE0) * 0x1000 +
            (0x80 + c.toNat / 0x40 % 0x40 - 0x80) * 0x40 + (0x80 + c.toNat % 0x40 - 0x80) =
            c.toNat := by omega
        rw [hX, Char.ofNat_toNat]
      · have h4 : c.toNat < 0x110000 := by omega
        have henc : utf8EncodeChar c =
            [0xF0 + c.toNat / 0x40000, 0x80 + c.toNat / 0x1000 % 0x40,
             0x80 + c.toNat / 0x40 % 0x40, 0x80 + c.toNat % 0x40] := by
          simp only [utf8EncodeChar]
          rw [if_neg h1, if_neg h2, if_neg h3]
        rw [henc, List.cons_append, List.cons_append, List.cons_append,
          List.singleton_append, utf8DecodeWith.eq_def]
        dsimp only
        rw [if_neg (by omega), if_neg (by omega), if_neg (by omega), if_pos (by omega :
          0xF0 ≤ 0xF0 + c.toNat / 0x40000 ∧ 0xF0 + c.toNat / 0x40000 ≤ 0xF4)]
        have hcond : (if 0xF0 + c.toNat / 0x40000 = 0xF0 then
              decide (0x90 ≤ 0x80 + c.toNat / 0x1000 % 0x40 ∧
                0x80 + c.toNat / 0x1000 % 0x40 ≤ 0xBF)
            else if 0xF0 + c.toNat / 0x40000 = 0xF4 then
              decide (0x80 ≤ 0x80 + c.toNat / 0x1000 % 0x40 ∧
                0x80 + c.toNat / 0x1000 % 0x40 ≤ 0x8F)
            else isCont (0x80 + c.toNat / 0x1000 % 0x40)) = true := by
          split_ifs with hb1 hb2
          · simp only [decide_eq_true_eq]
            omega
          · simp only [decide_eq_true_eq]
            omega
          · simp only [isCont, decide_eq_true_eq]
            omega
        rw [if_pos hcond]
        rw [if_pos (show isCont (0x80 + c.toNat / 0x40 % 0x40) = true by
          simp only [isCont, decide_eq_true_eq]; omega)]
        rw [if_pos (show isCont (0x80 + c.toNat % 0x40) = true by
          simp only [isCont, decide_eq_true_eq]; omega)]
        have hX : (0xF0 + c.toNat / 0x40000 - 0xF0) * 0x40000 +
            (0x80 + c.toNat / 0x1000 % 0x40 - 0x80) * 0x1000 +
            (0x80 + c.toNat / 0x40 % 0x40 - 0x80) * 0x40 +
            (0x80 + c.toNat % 0x40 - 0x80) = c.toNat := by omega
        rw [hX, Char.ofNat_toNat]

lemma decode_encode (err : List Char) (s : List Char) :
    utf8DecodeWith err (utf8Encode s) = s := by
  induction s with
  | nil =>
    rw [show utf8Encode [] = [] from rfl, utf8DecodeWith_nil]
  | cons c s ih =>
    have : utf8Encode (c :: s) = utf8EncodeChar c ++ utf8Encode s := by
      simp [utf8Encode]
    rw [this, decode_encodeChar, ih]

/-- The structured-format dispatch conditions of extract_text_from_file
(declared content type, or filename suffix, for PDF, DOCX, XLSX, PPTX). -/
def isStructuredFormat (content_type filename : Text) : Bool :=
  content_type == "application/pdf".toList ||
  ".pdf".toList.isSuffixOf filename ||
  content_type ==
    "application/vnd.openxmlformats-officedocument.wordprocessingml.document".toList ||
  ".docx".toList.isSuffixOf filename ||
  content_type ==
    "application/vnd.openxmlformats-officedocument.spreadsheetml.sheet".toList ||
  ".xlsx".toList.isSuffixOf filename ||
  content_type ==
    "application/vnd.openxmlformats-officedocument.presentationml.presentation".toList ||
  ".pptx".toList.isSuffixOf filename

/-- extract_text_from_file (src/backend/server.py lines 173-218) on the
plain-text and unrecognized branches, which both run
file_content.decode with utf-8 and errors=ignore, followed by str.strip.
The four structured formats delegate to external parser libraries (PyPDF2,
python-docx, openpyxl, python-pptx) that are not part of this repository,
so those branches are left as none. -/
def extract_text_from_file (file_content : List ℕ) (content_type filename : Text) :
    Option Text :=
  if isStructuredFormat content_type filename then none
  else some (pyStrip (utf8DecodeWith [] file_content))

/-- C7 counterexample: on the single invalid byte 255 with declared type
text/plain the code returns the empty string, because errors=ignore drops
the invalid byte; the claimed replacement-character decoding would return
the replacement character, which survives strip. -/
theorem extract_counterexample :
    extract_text_from_file [255] "text/plain".toList "a.txt".toList = some [] ∧
    pyStrip (utf8DecodeWith ['�'] [255]) = ['�'] ∧
    ([] : Text) ≠ ['�'] := by
  refine ⟨?_, ?_, by decide⟩
  · rw [extract_text_from_file, if_neg (by decide)]
    rw [utf8DecodeWith_invalid _ _ _ (by omega) (by omega) (by omega) (by omega),
      utf8DecodeWith_nil]
    rfl
  · rw [utf8DecodeWith_invalid _ _ _ (by omega) (by omega) (by omega) (by omega),
      utf8DecodeWith_nil]
    rfl

/-- C7 amended: for every byte string whose declared content type is plain
text or unrecognized, extract returns the UTF-8 decoding of the raw bytes
with each invalid byte sequence dropped (Python errors=ignore, not the
replacement character), trimmed of leading and trailing whitespace, and
never raises; the decoder is a genuine UTF-8 decoding, recovering every
validly encoded string exactly. -/
theorem extract_amended :
    (∀ (content : List ℕ) (content_type filename : Text),
      isStructuredFormat content_type filename = false →
      extract_text_from_file content content_type filename =
        some (pyStrip (utf8DecodeWith [] content))) ∧
    (∀ s : List Char, utf8DecodeWith [] (utf8Encode s) = s) := by
  constructor
  · intro content ct fn hf
    rw [extract_text_from_file, if_neg (by simp [hf])]
  · intro s
    exact decode_encode [] s

/-- Witness for extract_amended at a concrete unstructured input. -/
theorem extract_amended_witness :
    isStructuredFormat "text/plain".toList "a.txt".toList = false ∧
    extract_text_from_file [104, 105] "text/plain".toList "a.txt".toList =
      some (pyStrip (utf8DecodeWith [] [104, 105])) :=
  ⟨by decide, extract_amended.1 [104, 105] "text/plain".toList "a.txt".toList (by decide)⟩

/-! ### Data model and store -/

/-- A document record as stored in db.documents (the fields the claims
concern; timestamps and the raw content blob are omitted as inert). -/
structure Document where
  id : Text
  filename : Text
  content_type : Text
  size : ℕ
  status : Text
  uploaded_by : Text
  chunk_count : ℕ
deriving DecidableEq

/-- A chunk record as stored in db.document_chunks. -/
structure Chunk where
  document_id : Text
  chunk_index : ℕ
  text : Text
  keywords : List Text
deriving DecidableEq

/-- The persistent store: the two MongoDB collections the retrieval engine
reads, as lists in insertion order (the iteration order of find with no
sort, which the code relies on for stable ranking). -/
structure Store where
  documents : List Document
  document_chunks : List Chunk
deriving DecidableEq

/-- db.documents.find_one on an id: first matching record. -/
def findOneDoc (docs : List Document) (doc_id : Text) : Option Document :=
  docs.find? (fun d => decide (d.id = doc_id))

/-- The filename attached to a search result for a document id (total
version of the find_one lookup used when the document exists). -/
def filenameOf (docs : List Document) (doc_id : Text) : Text :=
  ((findOneDoc docs doc_id).map Document.filename).getD []

/-- One scored entry of the in-memory results list built by the search and
chat handlers before ranking. -/
structure ScoredRow where
  document_id : Text
  chunk_text : Text
  score : ℚ
deriving DecidableEq

/-- A response row of the search endpoint. -/
structure SearchResult where
  document_id : Text
  filename : Text
  chunk_text : Text
  score : ℚ
deriving DecidableEq

/-- The comparison the Python stable sort with key score and reverse=True
realizes: x stays before y exactly when the score of y does not exceed the
score of x. -/
def scoreGE (x y : ScoredRow) : Prop := y.score ≤ x.score

instance : DecidableRel scoreGE := fun x y => inferInstanceAs (Decidable (y.score ≤ x.score))

instance : IsTotal ScoredRow scoreGE := ⟨fun a b => le_total b.score a.score⟩

instance : IsTrans ScoredRow scoreGE := ⟨fun _ _ _ hab hbc => le_trans hbc hab⟩

/-- The results-list accumulation of semantic_search
(src/backend/server.py lines 469-478): iterate the chunk corpus in order,
skip chunks with falsy (empty) text, score the rest against the query, and
keep those with score strictly above 0. -/
def searchRows (q : Text) (chunks : List Chunk) : List ScoredRow :=
  chunks.filterMap (fun c =>
    if c.text = [] then none
    else if 0 < calculate_text_similarity q c.text then
      some { document_id := c.document_id, chunk_text := c.text,
             score := calculate_text_similarity q c.text }
    else none)

/-- The positively scoring chunks of the corpus, in corpus order. -/
def posRows (q : Text) (chunks : List Chunk) : List ScoredRow :=
  chunks.filterMap (fun c =>
    if 0 < calculate_text_similarity q c.text then
      some { document_id := c.document_id, chunk_text := c.text,
             score := calculate_text_similarity q c.text }
    else none)

/-- semantic_search (src/backend/server.py lines 456-498): fetch the chunk
corpus (to_list caps it at 10000 records), build the positively scoring
rows, sort them descending by score with Python sort stability, truncate
to the caller limit, then join each surviving row with its owning document
for the filename, dropping a row whose document lookup fails, and cap the
returned chunk text at 500 characters. -/
def semantic_search (q : Text) (limit : ℕ) (st : Store) : List SearchResult :=
  let chunks := st.document_chunks.take 10000
  let results := searchRows q chunks
  let sorted := List.insertionSort scoreGE results
  let truncated := sorted.take limit
  truncated.filterMap (fun r =>
    (findOneDoc st.documents r.document_id).map (fun d =>
      { document_id := r.document_id, filename := d.filename,
        chunk_text := r.chunk_text.take 500, score := r.score }))

lemma similarity_empty_text (q : Text) : calculate_text_similarity q [] = 0 :=
  similarity_empty_right q [] (by decide)

lemma searchRows_eq_posRows (q : Text) (chunks : List Chunk) :
    searchRows q chunks = posRows q chunks := by
  apply List.filterMap_congr
  intro c _
  by_cases ht : c.text = []
  · rw [if_pos ht, ht, if_neg (by rw [similarity_empty_text]; exact lt_irrefl 0)]
  · rw [if_neg ht]

lemma mem_posRows {q : Text} {chunks : List Chunk} {r : ScoredRow}
    (h : r ∈ posRows q chunks) :
    ∃ c ∈ chunks, r.document_id = c.document_id ∧ r.chunk_text = c.text ∧
      r.score = calculate_text_similarity q c.text ∧ 0 < r.score := by
  rw [posRows, List.mem_filterMap] at h
  obtain ⟨c, hc, heq⟩ := h
  by_cases hpos : 0 < calculate_text_similarity q c.text
  · rw [if_pos hpos, Option.some.injEq] at heq
    subst heq
    exact ⟨c, hc, rfl, rfl, rfl, hpos⟩
  · rw [if_neg hpos] at heq
    exact absurd heq (by simp)

lemma filter_orderedInsert_score (a : ScoredRow) (L : List ScoredRow) (s : ℚ) :
    (List.orderedInsert scoreGE a L).filter (fun r => decide (r.score = s)) =
      if a.score = s then a :: L.filter (fun r => decide (r.score = s))
      else L.filter (fun r => decide (r.score = s)) := by
  induction L with
  | nil =>
    simp only [List.orderedInsert, List.filter_cons, List.filter_nil, decide_eq_true_eq]
  | cons b L ih =>
    rw [List.orderedInsert]
    by_cases hab : scoreGE a b
    · rw [if_pos hab]
      simp only [List.filter_cons, decide_eq_true_eq]
    · rw [if_neg hab]
      have hlt : a.score < b.score := lt_of_not_le hab
      simp only [List.filter_cons, decide_eq_true_eq, ih]
      by_cases has : a.score = s
      · have hbs : ¬ b.score = s := by
          rw [← has]
          exact (ne_of_gt hlt)
        simp [has, hbs]
      · simp [has]

lemma filter_insertionSort_score (L : List ScoredRow) (s : ℚ) :
    (List.insertionSort scoreGE L).filter (fun r => decide (r.score = s)) =
      L.filter (fun r => decide (r.score = s)) := by
  induction L with
  | nil => rfl
  | cons a L ih =>
    rw [List.insertionSort, filter_orderedInsert_score, List.filter_cons]
    by_cases h : a.score = s
    · rw [if_pos h, ih]
      simp [h]
    · rw [if_neg h, ih]
      simp [h]

lemma search_filterMap_eq_map (st : Store) (l : List ScoredRow)
    (h : ∀ r ∈ l, (findOneDoc st.documents r.document_id).isSome) :
    l.filterMap (fun r =>
      (findOneDoc st.documents r.document_id).map (fun d =>
        ({ document_id := r.document_id, filename := d.filename,
           chunk_text := r.chunk_text.take 500, score := r.score } : SearchResult))) =
    l.map (fun r =>
      ({ document_id := r.document_id, filename := filenameOf st.documents r.document_id,
         chunk_text := r.chunk_text.take 500, score := r.score } : SearchResult)) := by
  induction l with
  | nil => rfl
  | cons r l ih =>
    rw [List.filterMap_cons, List.map_cons]
    have hr := h r (List.mem_cons_self r l)
    obtain ⟨d, hd⟩ := Option.isSome_iff_exists.mp hr
    rw [hd]
    simp only [Option.map_some']
    rw [ih (fun x hx => h x (List.mem_cons_of_mem r hx))]
    congr 2
    rw [filenameOf, hd]
    rfl

/-- C1: for every query, limit and store within the fetch capacity whose
chunks all resolve to a stored document, semantic_search returns exactly
the positively scoring chunks, stably sorted descending by score (equal
scores keep corpus order), truncated to the limit after sorting, each
entry carrying the owning filename and the chunk text capped at 500
characters; and it returns the empty list when no chunk scores above 0. -/
theorem search_spec (q : Text) (limit : ℕ) (st : Store)
    (hcap : st.document_chunks.length ≤ 10000)
    (hdocs : ∀ c ∈ st.document_chunks, (findOneDoc st.documents c.document_id).isSome) :
    semantic_search q limit st =
      ((List.insertionSort scoreGE (posRows q st.document_chunks)).take limit).map
        (fun r => { document_id := r.document_id,
                    filename := filenameOf st.documents r.document_id,
                    chunk_text := r.chunk_text.take 500, score := r.score }) ∧
    List.Sorted (fun a b : SearchResult => b.score ≤ a.score) (semantic_search q limit st) ∧
    (List.insertionSort scoreGE (posRows q st.document_chunks)).Perm
      (posRows q st.document_chunks) ∧
    (∀ s : ℚ, (List.insertionSort scoreGE (posRows q st.document_chunks)).filter
        (fun r => decide (r.score = s)) =
      (posRows q st.document_chunks).filter (fun r => decide (r.score = s))) ∧
    (posRows q st.document_chunks = [] → semantic_search q limit st = []) := by
  have hmem : ∀ r ∈ (List.insertionSort scoreGE (posRows q st.document_chunks)).take limit,
      (findOneDoc st.documents r.document_id).isSome := by
    intro r hr
    have hr2 : r ∈ posRows q st.document_chunks :=
      (List.mem_insertionSort scoreGE).mp (List.take_subset limit _ hr)
    obtain ⟨c, hc, hid, -, -, -⟩ := mem_posRows hr2
    rw [hid]
    exact hdocs c hc
  have hmain : semantic_search q limit st =
      ((List.insertionSort scoreGE (posRows q st.document_chunks)).take limit).map
        (fun r => { document_id := r.document_id,
                    filename := filenameOf st.documents r.document_id,
                    chunk_text := r.chunk_text.take 500, score := r.score }) := by
    rw [semantic_search]
    simp only [List.take_of_length_le hcap, searchRows_eq_posRows]
    exact search_filterMap_eq_map st _ hmem
  refine ⟨hmain, ?_, List.perm_insertionSort scoreGE _, filter_insertionSort_score _,
    fun h0 => ?_⟩
  · rw [hmain]
    have hs : List.Sorted scoreGE
        ((List.insertionSort scoreGE (posRows q st.document_chunks)).take limit) :=
      (List.sorted_insertionSort scoreGE (posRows q st.document_chunks)).sublist
        (List.take_sublist limit _)
    rw [List.Sorted, List.pairwise_map]
    exact hs.imp (fun h => h)
  · rw [hmain, h0]
    simp [List.insertionSort]

/-- A concrete indexed document used by the witnesses. -/
def witDoc : Document :=
  { id := "d1".toList, filename := "f.txt".toList,
    content_type := "text/plain".toList, size := 3,
    status := "indexed".toList, uploaded_by := "u1".toList, chunk_count := 1 }

/-- A concrete chunk of witDoc used by the witnesses. -/
def witChunk : Chunk :=
  { document_id := "d1".toList, chunk_index := 0, text := "cat".toList,
    keywords := get_text_keywords "cat".toList }

/-- A small concrete corpus used by the witnesses: one indexed document
owning one chunk. -/
def witStore : Store :=
  { documents := [witDoc], document_chunks := [witChunk] }

/-- Witness for search_spec: the capacity and resolvability hypotheses hold
on the concrete corpus, and the sort-permutation conjunct follows. -/
theorem search_spec_witness :
    witStore.document_chunks.length ≤ 10000 ∧
    (∀ c ∈ witStore.document_chunks, (findOneDoc witStore.documents c.document_id).isSome) ∧
    (List.insertionSort scoreGE (posRows "cat dog".toList witStore.document_chunks)).Perm
      (posRows "cat dog".toList witStore.document_chunks) :=
  ⟨by decide, by decide,
   (search_spec "cat dog".toList 10 witStore (by decide) (by decide)).2.2.1⟩

/-! ### RAG chat context and sources -/

/-- The scored rows built by rag_chat (src/backend/server.py lines
512-520): every chunk with non-empty text is kept together with its score,
zero scores included. -/
def ragScored (q : Text) (chunks : List Chunk) : List ScoredRow :=
  chunks.filterMap (fun c =>
    if c.text = [] then none
    else some { document_id := c.document_id, chunk_text := c.text,
                score := calculate_text_similarity q c.text })

/-- The top five rows by score used for chat context
(src/backend/server.py lines 522-523), after the stable descending sort. -/
def ragTop (q : Text) (st : Store) : List ScoredRow :=
  (List.insertionSort scoreGE (ragScored q (st.document_chunks.take 10000))).take 5

/-- The fixed marker substituted when no chunk is relevant (line 529). -/
def noRelevantMarker : Text := "No relevant documents found in the knowledge base.".toList

/-- The prefix prepended to each context excerpt (line 526). -/
def excerptHeader : Text := "[Document excerpt]: ".toList

/-- rag_chat context assembly (src/backend/server.py lines 526-529): join
the excerpts of the positively scoring rows among the top five with blank
lines; when that is empty substitute the fixed marker. -/
def rag_context (q : Text) (st : Store) : Text :=
  let ctx := List.intercalate "\n\n".toList
    ((ragTop q st).filterMap (fun r =>
      if 0 < r.score then some (excerptHeader ++ r.chunk_text) else none))
  if ctx = [] then noRelevantMarker else ctx

/-- One source attribution entry of the chat response. -/
structure ChatSource where
  document_id : Text
  filename : Text
  relevance : ℚ
deriving DecidableEq

/-- rag_chat source attribution (src/backend/server.py lines 599-608): at
most the first three of the top five rows, keeping only positive scores
and rows whose document resolves.  The response rounds relevance to three
decimals; that float rounding is not modeled, the value kept here is the
exact score. -/
def rag_sources (q : Text) (st : Store) : List ChatSource :=
  ((ragTop q st).take 3).filterMap (fun r =>
    if 0 < r.score then
      (findOneDoc st.documents r.document_id).map (fun d =>
        { document_id := r.document_id, filename := d.filename, relevance := r.score })
    else none)

lemma mem_ragScored {q : Text} {chunks : List Chunk} {r : ScoredRow}
    (h : r ∈ ragScored q chunks) :
    ∃ c ∈ chunks, r.document_id = c.document_id ∧ r.chunk_text = c.text ∧
      r.score = calculate_text_similarity q c.text := by
  rw [ragScored, List.mem_filterMap] at h
  obtain ⟨c, hc, heq⟩ := h
  by_cases ht : c.text = []
  · rw [if_pos ht] at heq
    exact absurd heq (by simp)
  · rw [if_neg ht, Option.some.injEq] at heq
    subst heq
    exact ⟨c, hc, rfl, rfl, rfl⟩

lemma mem_ragTop {q : Text} {st : Store} {r : ScoredRow} (h : r ∈ ragTop q st) :
    ∃ c ∈ st.document_chunks, r.document_id = c.document_id ∧ r.chunk_text = c.text ∧
      r.score = calculate_text_similarity q c.text := by
  have h2 : r ∈ ragScored q (st.document_chunks.take 10000) :=
    (List.mem_insertionSort scoreGE).mp (List.take_subset 5 _ h)
  obtain ⟨c, hc, hrest⟩ := mem_ragScored h2
  exact ⟨c, List.take_subset 10000 _ hc, hrest⟩

lemma intercalate_cons_exists (sep x : Text) (xs : List Text) :
    ∃ t, List.intercalate sep (x :: xs) = x ++ t := by
  cases xs with
  | nil => exact ⟨[], by simp [List.intercalate]⟩
  | cons y ys =>
    refine ⟨sep ++ List.intercalate sep (y :: ys), ?_⟩
    simp [List.intercalate, List.intersperse]

/-- C9: when no stored chunk scores strictly above 0 the chat context is
the fixed no-relevant-documents marker and the sources are empty;
otherwise the context is the joined excerpts of the positively scoring
rows among the top five by score and differs from the marker; at most five
rows feed the context, at most three sources are returned, and every
source refers to a stored chunk scoring strictly above 0.  The chat path
takes no caller limit, so all of this is independent of the search limit. -/
theorem rag_spec (q : Text) (st : Store) (hcap : st.document_chunks.length ≤ 10000) :
    ((∀ c ∈ st.document_chunks, calculate_text_similarity q c.text = 0) →
      rag_context q st = noRelevantMarker ∧ rag_sources q st = []) ∧
    ((∃ c ∈ st.document_chunks, 0 < calculate_text_similarity q c.text) →
      rag_context q st = List.intercalate "\n\n".toList
        ((ragTop q st).filterMap (fun r =>
          if 0 < r.score then some (excerptHeader ++ r.chunk_text) else none)) ∧
      rag_context q st ≠ noRelevantMarker) ∧
    (ragTop q st).length ≤ 5 ∧
    (rag_sources q st).length ≤ 3 ∧
    (∀ sr ∈ rag_sources q st, 0 < sr.relevance ∧
      ∃ c ∈ st.document_chunks, c.document_id = sr.document_id ∧
        calculate_text_similarity q c.text = sr.relevance) := by
  refine ⟨?_, ?_, List.length_take_le 5 _, ?_, ?_⟩
  · intro hz
    have hnone : ∀ r ∈ ragTop q st,
        (if 0 < r.score then some (excerptHeader ++ r.chunk_text) else none) = none := by
      intro r hr
      obtain ⟨c, hc, -, -, hsc⟩ := mem_ragTop hr
      rw [if_neg (by rw [hsc, hz c hc]; exact lt_irrefl 0)]
    constructor
    · rw [rag_context]
      simp only [List.filterMap_eq_nil_iff.mpr hnone]
      rw [show List.intercalate "\n\n".toList ([] : List Text) = [] from rfl, if_pos rfl]
    · rw [rag_sources]
      apply List.filterMap_eq_nil_iff.mpr
      intro r hr
      obtain ⟨c, hc, -, -, hsc⟩ := mem_ragTop (List.take_subset 3 _ hr)
      rw [if_neg (by rw [hsc, hz c hc]; exact lt_irrefl 0)]
  · rintro ⟨c, hc, hpos⟩
    have htext : c.text ≠ [] := by
      intro h0
      rw [h0, similarity_empty_text] at hpos
      exact lt_irrefl 0 hpos
    have hrow : (⟨c.document_id, c.text, calculate_text_similarity q c.text⟩ : ScoredRow) ∈
        ragScored q (st.document_chunks.take 10000) := by
      rw [ragScored, List.mem_filterMap]
      exact ⟨c, by rw [List.take_of_length_le hcap]; exact hc, by rw [if_neg htext]⟩
    have hmemsort : (⟨c.document_id, c.text, calculate_text_similarity q c.text⟩ : ScoredRow) ∈
        List.insertionSort scoreGE (ragScored q (st.document_chunks.take 10000)) :=
      (List.mem_insertionSort scoreGE).mpr hrow
    obtain ⟨h0, t0, hsortcons⟩ : ∃ h0 t0,
        List.insertionSort scoreGE (ragScored q (st.document_chunks.take 10000)) =
          h0 :: t0 := by
      cases hsort : List.insertionSort scoreGE (ragScored q (st.document_chunks.take 10000)) with
      | nil => rw [hsort] at hmemsort; exact absurd hmemsort (List.not_mem_nil _)
      | cons a l => exact ⟨a, l, rfl⟩
    have hsorted := List.sorted_insertionSort scoreGE (ragScored q (st.document_chunks.take 10000))
    rw [hsortcons] at hsorted hmemsort
    have hhead : 0 < h0.score := by
      rcases List.mem_cons.mp hmemsort with heq | hmem
      · rw [← heq]
        exact hpos
      · exact lt_of_lt_of_le hpos (List.rel_of_sorted_cons hsorted _ hmem)
    have htop : ragTop q st = h0 :: t0.take 4 := by
      rw [ragTop, hsortcons, List.take_succ_cons]
    have hpieces : (ragTop q st).filterMap (fun r =>
        if 0 < r.score then some (excerptHeader ++ r.chunk_text) else none) =
        (excerptHeader ++ h0.chunk_text) :: (t0.take 4).filterMap (fun r =>
          if 0 < r.score then some (excerptHeader ++ r.chunk_text) else none) := by
      rw [htop, List.filterMap_cons, if_pos hhead]
    obtain ⟨tail, htail⟩ := intercalate_cons_exists "\n\n".toList
      (excerptHeader ++ h0.chunk_text) _
    have hctx : List.intercalate "\n\n".toList ((ragTop q st).filterMap (fun r =>
        if 0 < r.score then some (excerptHeader ++ r.chunk_text) else none)) =
        '[' :: ("Document excerpt]: ".toList ++ h0.chunk_text ++ tail) := by
      rw [hpieces, htail]
      rfl
    have hne : rag_context q st = List.intercalate "\n\n".toList
        ((ragTop q st).filterMap (fun r =>
          if 0 < r.score then some (excerptHeader ++ r.chunk_text) else none)) := by
      rw [rag_context]
      simp only [hctx]
      rw [if_neg (by simp)]
    refine ⟨hne, ?_⟩
    rw [hne, hctx]
    intro heq
    have := congrArg List.head? heq
    simp [noRelevantMarker] at this
  · calc (rag_sources q st).length ≤ ((ragTop q st).take 3).length :=
      List.length_filterMap_le _ _
    _ ≤ 3 := List.length_take_le 3 _
  · intro sr hsr
    rw [rag_sources, List.mem_filterMap] at hsr
    obtain ⟨r, hr, heq⟩ := hsr
    by_cases hpos : 0 < r.score
    · rw [if_pos hpos] at heq
      obtain ⟨d, hd, hmap⟩ := Option.map_eq_some'.mp heq
      obtain ⟨c, hc, hid, -, hsc⟩ := mem_ragTop (List.take_subset 3 _ hr)
      refine ⟨by rw [← hmap]; exact hpos, c, hc, ?_, ?_⟩
      · rw [← hmap, hid]
      · rw [← hmap, ← hsc]
    · rw [if_neg hpos] at heq
      exact absurd heq (by simp)

/-- Witness for rag_spec: the empty corpus satisfies the hypotheses and the
chat context degrades to the fixed marker. -/
theorem rag_spec_witness :
    (Store.mk [] []).document_chunks.length ≤ 10000 ∧
    (∀ c ∈ (Store.mk [] []).document_chunks,
      calculate_text_similarity "query".toList c.text = 0) ∧
    rag_context "query".toList (Store.mk [] []) = noRelevantMarker :=
  ⟨by decide, by decide,
   ((rag_spec "query".toList (Store.mk [] []) (by decide)).1 (by decide)).1⟩

/-! ### The stored keywords field is dead at query time -/

/-- Two stores with identical documents whose chunk lists agree pointwise
on everything except the persisted keywords field. -/
def SameButKeywords (st st' : Store) : Prop :=
  st.documents = st'.documents ∧
  List.Forall₂ (fun c c' : Chunk => c.document_id = c'.document_id ∧
    c.chunk_index = c'.chunk_index ∧ c.text = c'.text)
    st.document_chunks st'.document_chunks

lemma searchRows_congr (q : Text) {l l' : List Chunk}
    (h : List.Forall₂ (fun c c' : Chunk => c.document_id = c'.document_id ∧
      c.chunk_index = c'.chunk_index ∧ c.text = c'.text) l l') :
    searchRows q l = searchRows q l' := by
  induction h with
  | nil => rfl
  | cons hab htail ih =>
    rw [searchRows, List.filterMap_cons, searchRows] at *
    rw [List.filterMap_cons, ih]
    congr 1
    rw [hab.1, hab.2.2]

lemma ragScored_congr (q : Text) {l l' : List Chunk}
    (h : List.Forall₂ (fun c c' : Chunk => c.document_id = c'.document_id ∧
      c.chunk_index = c'.chunk_index ∧ c.text = c'.text) l l') :
    ragScored q l = ragScored q l' := by
  induction h with
  | nil => rfl
  | cons hab htail ih =>
    rw [ragScored, List.filterMap_cons, ragScored] at *
    rw [List.filterMap_cons, ih]
    congr 1
    rw [hab.1, hab.2.2]

/-- C10: similarity at query time is computed from the query text and each
chunk text alone, never from the persisted keywords field, so two corpora
differing only in stored keywords yield identical search results, chat
context and chat sources. -/
theorem keywords_field_unused (q : Text) (limit : ℕ) (st st' : Store)
    (h : SameButKeywords st st') :
    semantic_search q limit st = semantic_search q limit st' ∧
    rag_context q st = rag_context q st' ∧
    rag_sources q st = rag_sources q st' := by
  obtain ⟨hdocs, hchunks⟩ := h
  have hrows : searchRows q (st.document_chunks.take 10000) =
      searchRows q (st'.document_chunks.take 10000) :=
    searchRows_congr q (List.forall₂_take 10000 hchunks)
  have hscored : ragScored q (st.document_chunks.take 10000) =
      ragScored q (st'.document_chunks.take 10000) :=
    ragScored_congr q (List.forall₂_take 10000 hchunks)
  have htop : ragTop q st = ragTop q st' := by
    rw [ragTop, ragTop, hscored]
  refine ⟨?_, ?_, ?_⟩
  · simp only [semantic_search]
    rw [hrows, hdocs]
  · rw [rag_context, rag_context, htop]
  · rw [rag_sources, rag_sources, htop, hdocs]

/-- The witness corpus with the stored keywords blanked out. -/
def witStoreK : Store :=
  { documents := witStore.documents,
    document_chunks := [{ document_id := "d1".toList, chunk_index := 0,
                          text := "cat".toList, keywords := [] }] }

/-- Witness for keywords_field_unused: two concrete corpora differing only
in the persisted keywords field produce the same search results. -/
theorem keywords_field_unused_witness :
    SameButKeywords witStore witStoreK ∧
    semantic_search "cat".toList 10 witStore = semantic_search "cat".toList 10 witStoreK :=
  ⟨⟨rfl, List.Forall₂.cons ⟨rfl, rfl, rfl⟩ List.Forall₂.nil⟩,
   (keywords_field_unused "cat".toList 10 witStore witStoreK
     ⟨rfl, List.Forall₂.cons ⟨rfl, rfl, rfl⟩ List.Forall₂.nil⟩).1⟩

/-! ### Deletion -/

/-- delete_document (src/backend/server.py lines 435-450): look up the
document (404 when the id is unknown), enforce that only an admin or the
owner may delete (403 otherwise, the authorization layer is outside the
specified core), then delete_one the document record (first match) and
delete_many every chunk carrying that document_id. -/
def delete_document (doc_id user_id user_role : Text) (st : Store) : Except ℕ Store :=
  match findOneDoc st.documents doc_id with
  | none => Except.error 404
  | some doc =>
    if user_role ≠ "admin".toList ∧ doc.uploaded_by ≠ user_id then Except.error 403
    else Except.ok
      { documents := st.documents.eraseP (fun d => decide (d.id = doc_id)),
        document_chunks := st.document_chunks.filter
          (fun c => decide (¬ c.document_id = doc_id)) }

lemma mem_semantic_search {q : Text} {limit : ℕ} {st : Store} {r : SearchResult}
    (h : r ∈ semantic_search q limit st) :
    ∃ c ∈ st.document_chunks, r.document_id = c.document_id := by
  simp only [semantic_search, searchRows_eq_posRows] at h
  rw [List.mem_filterMap] at h
  obtain ⟨row, hrow, heq⟩ := h
  obtain ⟨d, -, hgd⟩ := Option.map_eq_some'.mp heq
  have hid : r.document_id = row.document_id := by rw [← hgd]
  have hrow2 : row ∈ posRows q (st.document_chunks.take 10000) :=
    (List.mem_insertionSort scoreGE).mp (List.take_subset limit _ hrow)
  obtain ⟨c, hc, hcid, -, -, -⟩ := mem_posRows hrow2
  exact ⟨c, List.take_subset 10000 _ hc, by rw [hid, hcid]⟩

/-- C8: delete signals 404 NotFound on an unknown id; on a known id, for
an authorized caller (admin or owner), it succeeds, removes the document
(under the id-uniqueness invariant of uuid keys) and every chunk with that
document_id in the same operation, and a subsequent search never returns a
result referencing the deleted id. -/
theorem delete_spec (doc_id uid role : Text) (st : Store) :
    (findOneDoc st.documents doc_id = none →
      delete_document doc_id uid role st = Except.error 404) ∧
    (∀ doc, findOneDoc st.documents doc_id = some doc →
      (role = "admin".toList ∨ doc.uploaded_by = uid) →
      ∃ st', delete_document doc_id uid role st = Except.ok st' ∧
        (∀ c ∈ st'.document_chunks, c.document_id ≠ doc_id) ∧
        ((st.documents.map Document.id).Nodup → ∀ d ∈ st'.documents, d.id ≠ doc_id) ∧
        (∀ q limit, ∀ r ∈ semantic_search q limit st', r.document_id ≠ doc_id)) := by
  constructor
  · intro hnone
    rw [delete_document, hnone]
  · intro doc hdoc hauth
    rw [delete_document, hdoc]
    dsimp only
    rw [if_neg (by
      rintro ⟨hrole, howner⟩
      rcases hauth with h | h
      · exact hrole h
      · exact howner h)]
    have hchunks : ∀ c ∈ (st.document_chunks.filter
        (fun c => decide (¬ c.document_id = doc_id))), c.document_id ≠ doc_id := by
      intro c hc
      exact of_decide_eq_true ((List.mem_filter.mp hc).2)
    refine ⟨_, rfl, hchunks, ?_, ?_⟩
    · intro hnodup d hd
      have hdoc2 : List.find? (fun d => decide (d.id = doc_id)) st.documents = some doc :=
        hdoc
      have hdocmem : doc ∈ st.documents := List.mem_of_find?_eq_some hdoc2
      have hp := List.find?_some hdoc2
      have hdocid : doc.id = doc_id := of_decide_eq_true hp
      have hex : ∃ a l₁ l₂, (∀ b ∈ l₁, ¬(decide (b.id = doc_id) = true)) ∧
          decide (a.id = doc_id) = true ∧ st.documents = l₁ ++ a :: l₂ ∧
          st.documents.eraseP (fun d => decide (d.id = doc_id)) = l₁ ++ l₂ :=
        List.exists_of_eraseP hdocmem (decide_eq_true hdocid)
      obtain ⟨a, l₁, l₂, hl₁, hpa, hsplit, herase⟩ := hex
      dsimp only at hd
      rw [herase] at hd
      have haid : a.id = doc_id := of_decide_eq_true hpa
      rcases List.mem_append.mp hd with h1 | h2
      · intro hcontra
        exact absurd (decide_eq_true hcontra) (by simpa using hl₁ d h1)
      · rw [hsplit] at hnodup
        simp only [List.map_append, List.map_cons] at hnodup
        have hnd2 : (a.id :: l₂.map Document.id).Nodup := hnodup.of_append_right
        have hnotin : a.id ∉ l₂.map Document.id := (List.nodup_cons.mp hnd2).1
        intro hcontra
        exact hnotin (by rw [haid, ← hcontra]; exact List.mem_map_of_mem Document.id h2)
    · intro q limit r hr
      obtain ⟨c, hc, hid⟩ := mem_semantic_search hr
      rw [hid]
      exact hchunks c hc

/-- Witness for delete_spec: an admin delete on the concrete corpus. -/
theorem delete_spec_witness :
    findOneDoc witStore.documents "d1".toList = some witDoc ∧
    (∃ st', delete_document "d1".toList "u2".toList "admin".toList witStore = Except.ok st' ∧
      (∀ c ∈ st'.document_chunks, c.document_id ≠ "d1".toList) ∧
      ((witStore.documents.map Document.id).Nodup →
        ∀ d ∈ st'.documents, d.id ≠ "d1".toList) ∧
      (∀ q limit, ∀ r ∈ semantic_search q limit st', r.document_id ≠ "d1".toList)) :=
  ⟨by decide, (delete_spec "d1".toList "u2".toList "admin".toList witStore).2 witDoc
    (by decide) (Or.inl rfl)⟩

/-! ### Ingestion pipeline -/

/-- One freshly built chunk record as upload_document inserts it
(src/backend/server.py lines 376-385); the uuid id and the timestamp are
omitted as inert. -/
def mkChunk (doc_id : Text) (i : ℕ) (t : Text) : Chunk :=
  { document_id := doc_id, chunk_index := i, text := t,
    keywords := get_text_keywords t }

/-- The store after the first k chunk inserts of an upload. -/
def withChunks (st : Store) (doc_id : Text) (texts : List Text) (k : ℕ) : Store :=
  { st with document_chunks := st.document_chunks ++
      ((texts.take k).enum.map (fun p => mkChunk doc_id p.1 p.2)) }

/-- The documents.update_one of the except branch (src/backend/server.py
lines 408-411): it sets only the failed status, chunk_count is untouched. -/
def setFailed (st : Store) (doc_id : Text) : Store :=
  { st with documents := st.documents.map (fun d =>
      if d.id = doc_id then { d with status := "failed".toList } else d) }

/-- The documents.update_one of the success path (src/backend/server.py
lines 388-391): status indexed and chunk_count set together. -/
def setIndexed (st : Store) (doc_id : Text) (n : ℕ) : Store :=
  { st with documents := st.documents.map (fun d =>
      if d.id = doc_id then
        { d with status := "indexed".toList, chunk_count := n }
      else d) }

/-- The ingestion pipeline of upload_document (src/backend/server.py lines
353-412) as the sequence of store states after each persistence
operation.  The document record is inserted first, directly with status
processing and chunk_count 0 (the code has no pending stage); the chunks
are then inserted one by one; one final update ends the attempt.  failAt
injects a persistence failure: some k means the k-th operation inside the
try block raises (operations 0 to n - 1 are the chunk inserts, operation n
the final status update), upon which the except branch sets status failed
and nothing else.  none, or an index beyond the last operation, is a fully
successful run.  The extracted text is passed in directly; extraction is
modeled separately by extract_text_from_file. -/
def uploadTrace (doc_id filename content_type uploaded_by : Text) (size : ℕ)
    (text : Text) (failAt : Option ℕ) (st : Store) : List Store :=
  let doc0 : Document :=
    { id := doc_id, filename := filename, content_type := content_type,
      size := size, status := "processing".toList,
      uploaded_by := uploaded_by, chunk_count := 0 }
  let st1 : Store := { st with documents := st.documents ++ [doc0] }
  let chunks := (chunk_text text 1000 200).getD []
  let n := chunks.length
  let fails : Bool := match failAt with
    | some k => decide (k ≤ n)
    | none => false
  let m : ℕ := match failAt with
    | some k => min k n
    | none => n
  (st1 :: (List.range m).map (fun j => withChunks st1 doc_id chunks (j + 1))) ++
    [if fails then setFailed (withChunks st1 doc_id chunks m) doc_id
     else setIndexed (withChunks st1 doc_id chunks n) doc_id n]

/-- The store at the end of the upload request. -/
def upload_document (doc_id filename content_type uploaded_by : Text) (size : ℕ)
    (text : Text) (failAt : Option ℕ) (st : Store) : Store :=
  (uploadTrace doc_id filename content_type uploaded_by size text failAt st).getLastD st

/-- The status of a document id in a store. -/
def statusOf (st : Store) (doc_id : Text) : Option Text :=
  (findOneDoc st.documents doc_id).map Document.status

/-- The chunk_count field of a document id in a store. -/
def chunkCountOf (st : Store) (doc_id : Text) : Option ℕ :=
  (findOneDoc st.documents doc_id).map Document.chunk_count

lemma pyStrip_replicate (n : ℕ) (c : Char) (h : pyIsSpace c = false) :
    pyStrip (List.replicate n c) = List.replicate n c := by
  cases n with
  | zero => rfl
  | succ n =>
    have hdrop : (List.replicate (n + 1) c).dropWhile pyIsSpace =
        List.replicate (n + 1) c := by
      rw [List.replicate_succ, List.dropWhile_cons, h]
      simp [← List.replicate_succ]
    rw [pyStrip, hdrop, List.reverse_replicate, hdrop, List.reverse_replicate]

lemma chunk_text_1200a :
    chunk_text (List.replicate 1200 'a') 1000 200 =
      some [List.replicate 1000 'a', List.replicate 400 'a'] := by
  have hmin1 : min 1000 1200 = 1000 := by norm_num
  have hmin2 : min 1000 (1200 - 800) = 400 := by norm_num
  have hw0 : windowAt (List.replicate 1200 'a') 1000 0 = List.replicate 1000 'a' := by
    rw [windowAt, List.drop_zero, List.take_replicate, hmin1]
    exact pyStrip_replicate 1000 'a' (by decide)
  have hw800 : windowAt (List.replicate 1200 'a') 1000 800 = List.replicate 400 'a' := by
    rw [windowAt, List.drop_replicate, List.take_replicate, hmin2]
    exact pyStrip_replicate 400 'a' (by decide)
  rw [chunk_text_spec _ 1000 200 (by omega),
    offsets_1200 _ (by rw [List.length_replicate]) (by omega)]
  simp only [List.filterMap_cons, List.filterMap_nil, hw0, hw800]
  rw [if_neg (by simp), if_neg (by simp)]

/-- C5, as the code actually behaves (the claim is violated): a
1200-character upload whose second chunk insert raises leaves the document
in status failed with one chunk durably persisted, yet chunk_count still
0: the except branch sets only the status, so chunk_count does not
reflect the persisted chunks. -/
theorem upload_chunk_count_bug :
    statusOf (upload_document "d".toList "f.txt".toList "text/plain".toList
      "u".toList 1200 (List.replicate 1200 'a') (some 1) (Store.mk [] []))
      "d".toList = some "failed".toList ∧
    ((upload_document "d".toList "f.txt".toList "text/plain".toList
      "u".toList 1200 (List.replicate 1200 'a') (some 1) (Store.mk [] [])).document_chunks.filter
        (fun c => decide (c.document_id = "d".toList))).length = 1 ∧
    chunkCountOf (upload_document "d".toList "f.txt".toList "text/plain".toList
      "u".toList 1200 (List.replicate 1200 'a') (some 1) (Store.mk [] []))
      "d".toList = some 0 := by
  have h2 : (chunk_text (List.replicate 1200 'a') 1000 200).getD [] =
      [List.replicate 1000 'a', List.replicate 400 'a'] := by
    rw [chunk_text_1200a]
    rfl
  simp only [upload_document, uploadTrace, h2]
  norm_num
  refine ⟨rfl, rfl, rfl⟩

/-- C6 counterexample: on a concrete successful upload the very first
persisted state of the document already has status processing, and no
state of the whole attempt ever has status pending - the code never
creates the record in the pending stage the claim describes. -/
theorem upload_status_counterexample :
    ((uploadTrace "d".toList "f.txt".toList "text/plain".toList "u".toList 3
        "abc".toList none (Store.mk [] [])).map
      (fun s => statusOf s "d".toList)).head? = some (some "processing".toList) ∧
    ((uploadTrace "d".toList "f.txt".toList "text/plain".toList "u".toList 3
        "abc".toList none (Store.mk [] [])).all
      (fun s => decide (statusOf s "d".toList ≠ some "pending".toList))) = true := by
  constructor
  · rfl
  · decide

lemma findOneDoc_append_fresh (docs : List Document) (doc0 : Document) (doc_id : Text)
    (h : ∀ d ∈ docs, d.id ≠ doc_id) (hid : doc0.id = doc_id) :
    findOneDoc (docs ++ [doc0]) doc_id = some doc0 := by
  induction docs with
  | nil =>
    rw [List.nil_append, findOneDoc]
    exact List.find?_cons_of_pos _ (decide_eq_true hid)
  | cons d docs ih =>
    have hstep : List.find? (fun x => decide (x.id = doc_id)) (d :: (docs ++ [doc0])) =
        List.find? (fun x => decide (x.id = doc_id)) (docs ++ [doc0]) :=
      List.find?_cons_of_neg _ (by
        simp only [decide_eq_true_eq]
        exact h d (List.mem_cons_self d docs))
    rw [List.cons_append, findOneDoc, hstep]
    exact ih (fun x hx => h x (List.mem_cons_of_mem d hx))

lemma findOneDoc_map_update (docs : List Document) (doc_id : Text)
    (f : Document → Document) (hf : ∀ d, (f d).id = d.id) :
    findOneDoc (docs.map (fun d => if d.id = doc_id then f d else d)) doc_id =
      (findOneDoc docs doc_id).map f := by
  induction docs with
  | nil => rfl
  | cons d docs ih =>
    rw [List.map_cons]
    by_cases hd : d.id = doc_id
    · have h1 : List.find? (fun x => decide (x.id = doc_id))
          (f d :: docs.map (fun x => if x.id = doc_id then f x else x)) = some (f d) :=
        List.find?_cons_of_pos _ (by
          simp only [decide_eq_true_eq]
          rw [hf d]
          exact hd)
      have h2 : List.find? (fun x => decide (x.id = doc_id)) (d :: docs) = some d :=
        List.find?_cons_of_pos _ (decide_eq_true hd)
      rw [if_pos hd, findOneDoc, h1, findOneDoc, h2]
      rfl
    · have h1 : List.find? (fun x => decide (x.id = doc_id))
          (d :: docs.map (fun x => if x.id = doc_id then f x else x)) =
          List.find? (fun x => decide (x.id = doc_id))
            (docs.map (fun x => if x.id = doc_id then f x else x)) :=
        List.find?_cons_of_neg _ (by
          simp only [decide_eq_true_eq]
          exact hd)
      have h2 : List.find? (fun x => decide (x.id = doc_id)) (d :: docs) =
          List.find? (fun x => decide (x.id = doc_id)) docs :=
        List.find?_cons_of_neg _ (by
          simp only [decide_eq_true_eq]
          exact hd)
      rw [if_neg hd, findOneDoc, h1, findOneDoc, h2]
      exact ih

lemma upload_amended_core (doc_id : Text) (st1 st : Store) (chunks : List Text)
    (m n : ℕ) (fails : Bool)
    (hproc : statusOf st1 doc_id = some "processing".toList)
    (hfail : statusOf (setFailed (withChunks st1 doc_id chunks m) doc_id) doc_id =
      some "failed".toList)
    (hidx : statusOf (setIndexed (withChunks st1 doc_id chunks n) doc_id n) doc_id =
      some "indexed".toList) :
    ∃ term, (term = "indexed".toList ∨ term = "failed".toList) ∧
      (((st1 :: (List.range m).map (fun j => withChunks st1 doc_id chunks (j + 1))) ++
        [if fails = true then setFailed (withChunks st1 doc_id chunks m) doc_id
         else setIndexed (withChunks st1 doc_id chunks n) doc_id n]).map
          (fun s => statusOf s doc_id) =
        List.replicate
          ((((st1 :: (List.range m).map (fun j => withChunks st1 doc_id chunks (j + 1))) ++
            [if fails = true then setFailed (withChunks st1 doc_id chunks m) doc_id
             else setIndexed (withChunks st1 doc_id chunks n) doc_id n]).length) - 1)
          (some "processing".toList) ++ [some term]) ∧
      statusOf (((st1 :: (List.range m).map (fun j => withChunks st1 doc_id chunks (j + 1))) ++
        [if fails = true then setFailed (withChunks st1 doc_id chunks m) doc_id
         else setIndexed (withChunks st1 doc_id chunks n) doc_id n]).getLastD st) doc_id =
        some term := by
  have hprocW : ∀ k, statusOf (withChunks st1 doc_id chunks k) doc_id =
      some "processing".toList := fun _ => hproc
  have hterm : statusOf (if fails = true
      then setFailed (withChunks st1 doc_id chunks m) doc_id
      else setIndexed (withChunks st1 doc_id chunks n) doc_id n) doc_id =
      some (if fails = true then "failed".toList else "indexed".toList) := by
    by_cases hb : fails = true
    · rw [if_pos hb, if_pos hb, hfail]
    · rw [if_neg hb, if_neg hb, hidx]
  refine ⟨if fails = true then "failed".toList else "indexed".toList, ?_, ?_, ?_⟩
  · by_cases hb : fails = true
    · rw [if_pos hb]
      exact Or.inr rfl
    · rw [if_neg hb]
      exact Or.inl rfl
  · have hlen : (((st1 :: (List.range m).map (fun j => withChunks st1 doc_id chunks (j + 1))) ++
        [if fails = true then setFailed (withChunks st1 doc_id chunks m) doc_id
         else setIndexed (withChunks st1 doc_id chunks n) doc_id n]).length) - 1 =
        m + 1 := by
      simp
    rw [hlen, List.map_append, List.map_cons, List.map_map]
    rw [show ((fun s => statusOf s doc_id) ∘ fun j => withChunks st1 doc_id chunks (j + 1)) =
      (fun _ => some "processing".toList) from funext (fun j => hprocW (j + 1))]
    rw [List.map_const', List.length_range, hproc, List.replicate_succ]
    rw [List.map_cons, List.map_nil, hterm]
  · rw [List.getLastD_concat, hterm]

/-- C6 amended: when the id is fresh, the upload attempt creates the
record directly in status processing (no pending stage exists in the
code), every intermediate state keeps status processing, and the attempt
ends in exactly one terminal status, indexed or failed; after the request
finishes the document is never left in processing. -/
theorem upload_status_amended (doc_id filename content_type uploaded_by : Text)
    (size : ℕ) (text : Text) (failAt : Option ℕ) (st : Store)
    (hfresh : ∀ d ∈ st.documents, d.id ≠ doc_id) :
    ∃ term, (term = "indexed".toList ∨ term = "failed".toList) ∧
      (uploadTrace doc_id filename content_type uploaded_by size text failAt st).map
          (fun s => statusOf s doc_id) =
        List.replicate
          ((uploadTrace doc_id filename content_type uploaded_by size text failAt st).length
            - 1) (some "processing".toList) ++ [some term] ∧
      statusOf (upload_document doc_id filename content_type uploaded_by size text failAt st)
          doc_id = some term := by
  simp only [upload_document, uploadTrace]
  apply upload_amended_core
  · rw [statusOf]
    dsimp only
    rw [findOneDoc_append_fresh st.documents _ doc_id hfresh rfl]
    rfl
  · rw [statusOf, setFailed]
    dsimp only [withChunks]
    rw [findOneDoc_map_update _ doc_id
        (fun d => { d with status := "failed".toList }) (fun d => rfl),
      findOneDoc_append_fresh st.documents _ doc_id hfresh rfl]
    rfl
  · rw [statusOf, setIndexed]
    dsimp only [withChunks]
    rw [findOneDoc_map_update _ doc_id
        (fun d => { d with status := "indexed".toList, chunk_count := ((chunk_text text 1000 200).getD []).length }) (fun d => rfl),
      findOneDoc_append_fresh st.documents _ doc_id hfresh rfl]
    rfl

/-- Witness for upload_status_amended on a concrete successful upload. -/
theorem upload_status_amended_witness :
    (∀ d ∈ (Store.mk [] []).documents, d.id ≠ "d".toList) ∧
    ∃ term, (term = "indexed".toList ∨ term = "failed".toList) ∧
      (uploadTrace "d".toList "f.txt".toList "text/plain".toList "u".toList 3
          "abc".toList none (Store.mk [] [])).map (fun s => statusOf s "d".toList) =
        List.replicate
          ((uploadTrace "d".toList "f.txt".toList "text/plain".toList "u".toList 3
            "abc".toList none (Store.mk [] [])).length - 1)
          (some "processing".toList) ++ [some term] ∧
      statusOf (upload_document "d".toList "f.txt".toList "text/plain".toList
        "u".toList 3 "abc".toList none (Store.mk [] [])) "d".toList = some term :=
  ⟨by decide, upload_status_amended "d".toList "f.txt".toList "text/plain".toList
    "u".toList 3 "abc".toList none (Store.mk [] []) (by decide)⟩

/-! ### Keyword extraction versus the claimed maximal-run specification -/

/-- Whether decoding may continue a token here: true at end of text or
when the next character is not a word character (a word boundary). -/
def nextClean : List Char → Bool
  | [] => true
  | d :: _ => !isWordChar d

/-- The maximal runs of ASCII letters of a text, each with two flags: the
first is true when the character before the run (if any) is not a word
character, the second is true when the character after the run (if any)
is not a word character.  Specification-side companion of the scanner,
phrased by splitting the text into runs. -/
def alphaRunsCtx : Bool → List Char → List (Bool × Text × Bool)
  | _, [] => []
  | prevW, c :: cs =>
    if c.isAlpha then
      (!prevW, c :: cs.takeWhile Char.isAlpha, nextClean (cs.dropWhile Char.isAlpha)) ::
        alphaRunsCtx true (cs.dropWhile Char.isAlpha)
    else alphaRunsCtx (isWordChar c) cs
termination_by _ l => l.length
decreasing_by
  all_goals simp only [List.length_cons]
  all_goals (first
    | exact Nat.lt_succ_of_le (List.dropWhile_sublist _).length_le
    | omega)

/-- The claim as written: the maximal runs of ASCII letters of length at
least 3 of the lowercased text, stop words removed - with no word-boundary
requirement on the characters adjacent to a run. -/
def keywords_claimed (text : Text) : List Text :=
  ((alphaRunsCtx false (pyLower text)).filterMap (fun t =>
    if 3 ≤ t.2.1.length then some t.2.1 else none)).filter
    (fun w => decide (¬ w ∈ stop_words))

/-- The amended specification: the maximal runs of ASCII letters of length
at least 3 of the lowercased text that are not immediately preceded or
followed by a word character (digit or underscore), stop words removed. -/
def keywords_amended (text : Text) : List Text :=
  ((alphaRunsCtx false (pyLower text)).filterMap (fun t =>
    if t.1 = true ∧ 3 ≤ t.2.1.length ∧ t.2.2 = true then some t.2.1 else none)).filter
    (fun w => decide (¬ w ∈ stop_words))

lemma alphaRunsCtx_nil (prevW : Bool) : alphaRunsCtx prevW [] = [] := by
  rw [alphaRunsCtx.eq_def]

lemma alphaRunsCtx_cons_alpha (prevW : Bool) (c : Char) (cs : List Char)
    (hc : c.isAlpha = true) :
    alphaRunsCtx prevW (c :: cs) =
      (!prevW, c :: cs.takeWhile Char.isAlpha, nextClean (cs.dropWhile Char.isAlpha)) ::
        alphaRunsCtx true (cs.dropWhile Char.isAlpha) := by
  rw [alphaRunsCtx.eq_def]
  dsimp only
  rw [if_pos hc]

lemma alphaRunsCtx_cons_nonalpha (prevW : Bool) (c : Char) (cs : List Char)
    (hc : c.isAlpha = false) :
    alphaRunsCtx prevW (c :: cs) = alphaRunsCtx (isWordChar c) cs := by
  rw [alphaRunsCtx.eq_def]
  dsimp only
  rw [if_neg (by simp [hc])]

lemma scanTokens_skip_alpha : ∀ cs : List Char,
    scanTokens none true cs = scanTokens none true (cs.dropWhile Char.isAlpha) := by
  intro cs
  induction cs with
  | nil => rfl
  | cons c cs ih =>
    by_cases hc : c.isAlpha = true
    · rw [List.dropWhile_cons, if_pos hc, ← ih]
      simp [scanTokens, hc]
    · have hc' : c.isAlpha = false := by
        revert hc
        cases c.isAlpha <;> simp
      rw [List.dropWhile_cons, if_neg (by simp [hc'])]

lemma scanTokens_run : ∀ (cs : List Char) (r : Text),
    scanTokens (some r) true cs =
      (if 3 ≤ (r ++ cs.takeWhile Char.isAlpha).length ∧
          nextClean (cs.dropWhile Char.isAlpha) = true
       then [r ++ cs.takeWhile Char.isAlpha] else []) ++
      scanTokens none true (cs.dropWhile Char.isAlpha) := by
  intro cs
  induction cs with
  | nil =>
    intro r
    simp [scanTokens, nextClean]
  | cons c cs ih =>
    intro r
    by_cases hc : c.isAlpha = true
    · have hL : scanTokens (some r) true (c :: cs) = scanTokens (some (r ++ [c])) true cs := by
        simp [scanTokens, hc]
      have hra : r ++ c :: cs.takeWhile Char.isAlpha =
          (r ++ [c]) ++ cs.takeWhile Char.isAlpha := by
        rw [List.append_assoc]
        rfl
      have htw : List.takeWhile Char.isAlpha (c :: cs) = c :: cs.takeWhile Char.isAlpha := by
        rw [List.takeWhile_cons, if_pos hc]
      have hdw : List.dropWhile Char.isAlpha (c :: cs) = cs.dropWhile Char.isAlpha := by
        rw [List.dropWhile_cons, if_pos hc]
      rw [htw, hdw, hL, ih (r ++ [c]), hra]
    · have hc' : c.isAlpha = false := by
        revert hc
        cases c.isAlpha <;> simp
      have hL : scanTokens (some r) true (c :: cs) =
          (if 3 ≤ r.length ∧ isWordChar c = false then [r] else []) ++
            scanTokens none (isWordChar c) cs := by
        simp [scanTokens, hc']
      have hR : scanTokens none true (c :: cs) = scanTokens none (isWordChar c) cs := by
        simp [scanTokens, hc']
      have htw : List.takeWhile Char.isAlpha (c :: cs) = [] := by
        rw [List.takeWhile_cons, if_neg (by simp [hc'])]
      have hdw : List.dropWhile Char.isAlpha (c :: cs) = c :: cs := by
        rw [List.dropWhile_cons, if_neg (by simp [hc'])]
      rw [htw, hdw, hL, hR, List.append_nil]
      have hnc : nextClean (c :: cs) = !isWordChar c := rfl
      by_cases hcnd : 3 ≤ r.length ∧ isWordChar c = false
      · rw [if_pos hcnd, if_pos (by
          refine ⟨hcnd.1, ?_⟩
          rw [hnc, hcnd.2]
          rfl)]
      · rw [if_neg hcnd, if_neg (by
          rintro ⟨h1, h2⟩
          rw [hnc] at h2
          exact hcnd ⟨h1, by simpa using h2⟩)]

lemma scanTokens_eq_runs : ∀ (N : ℕ) (cs : List Char), cs.length ≤ N → ∀ prevW : Bool,
    scanTokens none prevW cs =
      (alphaRunsCtx prevW cs).filterMap (fun t =>
        if t.1 = true ∧ 3 ≤ t.2.1.length ∧ t.2.2 = true then some t.2.1 else none) := by
  intro N
  induction N with
  | zero =>
    intro cs hcs prevW
    have hnil : cs = [] := List.eq_nil_of_length_eq_zero (by omega)
    subst hnil
    rw [alphaRunsCtx_nil]
    rfl
  | succ N ih =>
    intro cs hcs prevW
    cases cs with
    | nil =>
      rw [alphaRunsCtx_nil]
      rfl
    | cons c cs =>
      have hlen : cs.length ≤ N := by
        simp only [List.length_cons] at hcs
        omega
      have hlenD : (cs.dropWhile Char.isAlpha).length ≤ N :=
        le_trans (List.dropWhile_sublist _).length_le hlen
      by_cases hc : c.isAlpha = true
      · rw [alphaRunsCtx_cons_alpha _ _ _ hc, List.filterMap_cons]
        cases prevW with
        | false =>
          have hL : scanTokens none false (c :: cs) = scanTokens (some [c]) true cs := by
            simp [scanTokens, hc]
          rw [hL, scanTokens_run cs [c], ih (cs.dropWhile Char.isAlpha) hlenD true]
          simp only [List.singleton_append, Bool.not_false, true_and]
          by_cases hcond : 3 ≤ (c :: cs.takeWhile Char.isAlpha).length ∧
              nextClean (cs.dropWhile Char.isAlpha) = true
          · rw [if_pos hcond, if_pos hcond]
            simp
          · rw [if_neg hcond, if_neg hcond]
            simp
        | true =>
          have h1 : scanTokens none true (c :: cs) = scanTokens none true cs := by
            simp [scanTokens, hc]
          rw [h1, scanTokens_skip_alpha cs, ih (cs.dropWhile Char.isAlpha) hlenD true]
          simp
      · have hc' : c.isAlpha = false := by
          revert hc
          cases c.isAlpha <;> simp
        rw [alphaRunsCtx_cons_nonalpha _ _ _ hc']
        have hL : scanTokens none prevW (c :: cs) = scanTokens none (isWordChar c) cs := by
          simp [scanTokens, hc']
        rw [hL]
        exact ih cs hlen (isWordChar c)

lemma get_text_keywords_eq_amended (text : Text) :
    get_text_keywords text = keywords_amended text := by
  rw [get_text_keywords, keywords_amended,
    scanTokens_eq_runs (pyLower text).length (pyLower text) le_rfl false]

/-- C4 counterexample: on the input abc1 the code returns no keyword at
all, because the word boundary between the letter run and the digit fails,
while the claimed specification (all maximal letter runs of length at
least 3) returns abc. -/
theorem keywords_claim_counterexample :
    get_text_keywords "abc1".toList = [] ∧
    keywords_claimed "abc1".toList = ["abc".toList] ∧
    ([] : List Text) ≠ ["abc".toList] := by
  refine ⟨by decide, ?_, by decide⟩
  have hlist : pyLower "abc1".toList = 'a' :: 'b' :: 'c' :: '1' :: [] := by decide
  rw [keywords_claimed, hlist]
  rw [alphaRunsCtx_cons_alpha _ _ _ (by decide)]
  rw [show List.takeWhile Char.isAlpha ('b' :: 'c' :: '1' :: []) = ['b', 'c'] from rfl]
  rw [show List.dropWhile Char.isAlpha ('b' :: 'c' :: '1' :: []) = ['1'] from rfl]
  rw [alphaRunsCtx_cons_nonalpha _ _ _ (by decide), alphaRunsCtx_nil]
  decide

/-- C4 amended: the keyword extractor returns exactly the maximal runs of
ASCII letters of length at least 3 of the lowercased text that are not
immediately preceded or followed by another word character (the regex
word-boundary requirement, which drops runs adjacent to digits or
underscores), with stop words removed; consequently the result never
contains a stop word or a token shorter than 3 characters, and on
The cat sat it returns exactly cat and sat in lower case. -/
theorem keywords_spec :
    (∀ text : Text, get_text_keywords text = keywords_amended text) ∧
    (∀ (text w : Text), w ∈ get_text_keywords text → 3 ≤ w.length ∧ w ∉ stop_words) ∧
    get_text_keywords "The cat sat".toList = ["cat".toList, "sat".toList] := by
  refine ⟨get_text_keywords_eq_amended, ?_, by decide⟩
  intro text w hw
  rw [get_text_keywords_eq_amended, keywords_amended] at hw
  obtain ⟨hmem, hstop⟩ := List.mem_filter.mp hw
  refine ⟨?_, of_decide_eq_true hstop⟩
  rw [List.mem_filterMap] at hmem
  obtain ⟨t, _, heq⟩ := hmem
  by_cases hcond : t.1 = true ∧ 3 ≤ t.2.1.length ∧ t.2.2 = true
  · rw [if_pos hcond, Option.some.injEq] at heq
    rw [← heq]
    exact hcond.2.1
  · rw [if_neg hcond] at heq
    exact absurd heq (by simp)

/-- Witness for keywords_spec at a concrete extracted token. -/
theorem keywords_spec_witness :
    "cat".toList ∈ get_text_keywords "The cat sat".toList ∧
    3 ≤ "cat".toList.length ∧ "cat".toList ∉ stop_words :=
  ⟨by decide, keywords_spec.2.1 "The cat sat".toList "cat".toList (by decide)⟩

end DMS
